import Mathlib

/-
Verification of the slot-allocation engine of the projectmanager repository.

The engine (src/calendar_integration.py) is embedded shallowly:

* Timestamps are natural numbers of minutes since a fixed epoch whose day 0
  is a Monday, so `t / 1440` is Python's `.date()` and `(t / 1440) % 7` is
  Python's `.weekday()` (Monday = 0).  Task durations
  (`timedelta(hours=float(...))`) are modelled at minute granularity.
* The two unbounded `while` loops of the source (`next_allowed_probe`,
  `next_allowed_date_from`, and the per-task day scans) are modelled with
  explicit fuel; a `none` result means no amount of fuel makes the loop
  finish, i.e. the Python loop does not terminate.  The weekday-skipping
  loops are given fuel 7: weekdays repeat with period 7, so they either
  stop within 7 iterations or never do.
* `datetime.fromisoformat` on a malformed string raises `ValueError`; a
  malformed deadline is modelled as `Option.none` and the raised exception
  as the `SchedResult.error` outcome.
* The Google Calendar service is external to the repository; the two reads
  the engine performs are modelled from the spec (section 6) as pure
  functions over a list `cal` of occupied intervals.
-/

namespace PM

/-- Minutes per day. -/
def DAY : ℕ := 1440

/-- Python `dt.date()`: the calendar-day number of a timestamp. -/
def dateOf (t : ℕ) : ℕ := t / 1440

/-- Python `dt.hour`. -/
def hourOf (t : ℕ) : ℕ := t % 1440 / 60

/-- Python `datetime.combine(day, time(hour=h))` / `dt.replace(hour=h, minute=0, ...)`. -/
def atHour (d h : ℕ) : ℕ := d * 1440 + h * 60

/-- Fallback work-window start hour (source line 9). -/
def WORK_START : ℕ := 9

/-- Fallback work-window end hour (source line 10). -/
def WORK_END : ℕ := 22

/-- One-hour break after each placed event, in minutes (source line 11). -/
def BUFFER : ℕ := 60

/-- Default per-day task-count cap (source line 13). -/
def DEFAULT_MAX_TASKS_PER_DAY : ℕ := 2

/-- Weekday code table (source lines 15-23). -/
def CODE_TO_WEEKDAY (c : String) : Option ℕ :=
  if c = "MO" then some 0
  else if c = "TU" then some 1
  else if c = "WE" then some 2
  else if c = "TH" then some 3
  else if c = "FR" then some 4
  else if c = "SA" then some 5
  else if c = "SU" then some 6
  else none

/-- Preferred-time windows, (start hour, end hour) (source lines 26-31). -/
def PREFERRED_WINDOWS (s : String) : Option (ℕ × ℕ) :=
  if s = "morning" then some (8, 12)
  else if s = "noon" then some (12, 14)
  else if s = "afternoon" then some (14, 18)
  else if s = "night" then some (18, 22)
  else none

/-- A task as consumed by `schedule_tasks`: `{id, task, duration_hours}`,
with the duration in minutes. -/
structure Task where
  id : ℕ
  task : String
  durationMin : ℕ
deriving DecidableEq

/-- A scheduled event `{summary, start, end}` as produced by the engine. -/
structure Event where
  summary : String
  start : ℕ
  stop : ℕ
deriving DecidableEq

/-- An unscheduled entry `{id, task}`. -/
structure Unsched where
  id : ℕ
  task : String
deriving DecidableEq

/-- A time interval as a (start, end) pair of timestamps. -/
abbrev Interval := ℕ × ℕ

/-! ### Free/busy carve-out pieces (source lines 282-309) -/

/-- The busy slices of `busy` that touch day `d`, clipped to that day's
9:00-22:00 window, in the order the source's loop collects them
(source lines 286-292). -/
def daySlices (busy : List Interval) (d : ℕ) : List Interval :=
  busy.filterMap fun b =>
    if dateOf b.1 ≤ d ∧ d ≤ dateOf b.2 then
      if max b.1 (atHour d WORK_START) < min b.2 (atHour d WORK_END) then
        some (max b.1 (atHour d WORK_START), min b.2 (atHour d WORK_END))
      else none
    else none

/-- Comparison by interval start, the sort key of source line 293. -/
def startLE (a b : Interval) : Prop := a.1 ≤ b.1

instance : DecidableRel startLE := fun a b => Nat.decLe a.1 b.1

instance : IsTotal Interval startLE := ⟨fun a b => Nat.le_total a.1 b.1⟩

instance : IsTrans Interval startLE := ⟨fun _ _ _ h1 h2 => Nat.le_trans h1 h2⟩

/-- `day_busy.sort(key=lambda x: x[0])` (source line 293): a stable sort by
interval start. -/
def sortSlices (l : List Interval) : List Interval := List.insertionSort startLE l

/-- The free-window carve loop of source lines 296-303. -/
def carve (cursor dayEnd : ℕ) : List Interval → List Interval
  | [] => if cursor < dayEnd then [(cursor, dayEnd)] else []
  | b :: rest =>
      (if cursor < b.1 then [(cursor, b.1)] else []) ++ carve (max cursor b.2) dayEnd rest

/-- First free window that fits `duration` (source lines 306-309). -/
def firstFit (duration : ℕ) : List Interval → Option Interval
  | [] => none
  | w :: rest =>
      if w.1 + duration ≤ w.2 then some (w.1, w.1 + duration) else firstFit duration rest

/-- The free windows of day `d` once `busy` is clipped, sorted, and carved
out of the 9:00-22:00 window. -/
def freeWindows (busy : List Interval) (d : ℕ) : List Interval :=
  carve (atHour d WORK_START) (atHour d WORK_END) (sortSlices (daySlices busy d))

/-- One full day scan of `_schedule_by_freebusy`: the slot the first-fit
search yields on day `d` (source lines 282-309). -/
def findOnDay (busy : List Interval) (duration d : ℕ) : Option Interval :=
  firstFit duration (freeWindows busy d)

/-! ### Weekday-skipping loops -/

/-- The `while d.weekday() not in allowed_indices: d += 1 day` loop shared by
`next_allowed_date_from` (source lines 153-157) and `next_allowed_probe`
(source lines 269-271), with explicit fuel.  `none` means the loop never
stops. -/
def nextAllowedDay (allowed : List ℕ) : ℕ → ℕ → Option ℕ
  | 0, _ => none
  | fuel + 1, d => if d % 7 ∈ allowed then some d else nextAllowedDay allowed fuel (d + 1)

/-- `next_allowed_date_from` (source lines 153-157): first allowed day number
at or after `d`.  Fuel 7 is exact: the weekday cycle has period 7, so the
loop stops within 7 steps or never. -/
def next_allowed_date_from (allowed : List ℕ) (d : ℕ) : Option ℕ :=
  nextAllowedDay allowed 7 d

/-- `next_allowed_probe` (source lines 263-272): 9:00 of the first allowed
day strictly after the probe's day. -/
def next_allowed_probe (allowed : List ℕ) (dt : ℕ) : Option ℕ :=
  (nextAllowedDay allowed 7 (dateOf dt + 1)).map fun d => atHour d WORK_START

/-! ### The free/busy engine `_schedule_by_freebusy` (source lines 238-330) -/

/-- The eligibility-guarded day scan of source lines 279-309: a slot is
searched only if the probe's weekday is allowed and the day is under the cap. -/
def fbDaySlot (allowed : List ℕ) (limit : ℕ) (busy : List Interval)
    (counts : ℕ → ℕ) (duration d : ℕ) : Option Interval :=
  if d % 7 ∈ allowed ∧ counts d < limit then findOnDay busy duration d else none

/-- The per-task `while probe.date() <= deadline_date` loop of source lines
278-314.  Returns the found slot (if any) and the final probe value; `none`
means the loop never terminates (the weekday skip ran dry). -/
def fbFindSlot (allowed : List ℕ) (limit deadline : ℕ) (busy : List Interval)
    (counts : ℕ → ℕ) (duration : ℕ) : ℕ → ℕ → Option (Option Interval × ℕ)
  | 0, probe => if deadline < dateOf probe then some (none, probe) else none
  | fuel + 1, probe =>
    if deadline < dateOf probe then some (none, probe)
    else
      match fbDaySlot allowed limit busy counts duration (dateOf probe) with
      | some s => some (some s, probe)
      | none =>
        match next_allowed_probe allowed probe with
        | none => none
        | some p => fbFindSlot allowed limit deadline busy counts duration fuel p

/-- `day_counts[d] = day_counts.get(d, 0) + 1`. -/
def bump (counts : ℕ → ℕ) (d : ℕ) : ℕ → ℕ :=
  fun x => if x = d then counts d + 1 else counts x

/-- The `for t in tasks` loop of `_schedule_by_freebusy` (source lines
274-328): on placement the slot plus its one-hour buffer is appended to the
busy list, the day's count is bumped, and the probe jumps to the buffer end. -/
def fbGo (allowed : List ℕ) (limit deadline fuel : ℕ) :
    List Task → List Interval → (ℕ → ℕ) → ℕ → Option (List Event × List Unsched)
  | [], _, _, _ => some ([], [])
  | t :: ts, busy, counts, probe =>
    match fbFindSlot allowed limit deadline busy counts t.durationMin fuel probe with
    | none => none
    | some (none, p) =>
      match fbGo allowed limit deadline fuel ts busy counts p with
      | none => none
      | some (s, u) => some (s, ⟨t.id, t.task⟩ :: u)
    | some (some (ss, se), _) =>
      match fbGo allowed limit deadline fuel ts (busy ++ [(ss, se + BUFFER)])
          (bump counts (dateOf ss)) (se + BUFFER) with
      | none => none
      | some (s, u) => some (⟨t.task, ss, se⟩ :: s, u)

/-- `_schedule_by_freebusy` (source lines 238-330).  The initial probe is
clamped up to 9:00 when the start is earlier in its day (source lines
259-261). -/
def schedule_by_freebusy (allowed : List ℕ) (limit deadline fuel : ℕ)
    (tasks : List Task) (busy : List Interval) (startDt : ℕ) :
    Option (List Event × List Unsched) :=
  fbGo allowed limit deadline fuel tasks busy (fun _ => 0)
    (if hourOf startDt < WORK_START then atHour (dateOf startDt) WORK_START else startDt)

/-! ### The preferred-time engine `_schedule_by_preferred_time`
(source lines 130-235) -/

/-- The persistent cursor clamp of source lines 193-199: inside the
eligibility check, the cursor is raised to the day's window start. -/
def ptCur1 (allowed : List ℕ) (limit : ℕ) (counts : ℕ → ℕ)
    (wsHr cd cursor : ℕ) : ℕ :=
  if cd % 7 ∈ allowed ∧ counts cd < limit then max cursor (atHour cd wsHr) else cursor

/-- The per-task `while current_date <= deadline_date` loop of source lines
181-230.  Returns the slot (if placed), the final current date and the final
cursor; `none` means `next_allowed_date_from` never terminated. -/
def ptFindSlot (allowed : List ℕ) (limit deadline wsHr weHr duration : ℕ)
    (counts : ℕ → ℕ) : ℕ → ℕ → ℕ → Option (Option Interval × ℕ × ℕ)
  | 0, cd, cursor => if deadline < cd then some (none, cd, cursor) else none
  | fuel + 1, cd, cursor =>
    if deadline < cd then some (none, cd, cursor)
    else
      if (cd % 7 ∈ allowed ∧ counts cd < limit) ∧
          ptCur1 allowed limit counts wsHr cd cursor + duration ≤ atHour cd weHr then
        some (some (ptCur1 allowed limit counts wsHr cd cursor,
          ptCur1 allowed limit counts wsHr cd cursor + duration), cd,
          ptCur1 allowed limit counts wsHr cd cursor + duration + BUFFER)
      else
        match next_allowed_date_from allowed (cd + 1) with
        | none => none
        | some nd =>
          if deadline < nd then some (none, cd, ptCur1 allowed limit counts wsHr cd cursor)
          else ptFindSlot allowed limit deadline wsHr weHr duration counts fuel nd (atHour nd wsHr)

/-- The `for t in tasks` loop of `_schedule_by_preferred_time` (source lines
177-233). -/
def prefGo (allowed : List ℕ) (limit deadline wsHr weHr fuel : ℕ) :
    List Task → (ℕ → ℕ) → ℕ → ℕ → Option (List Event × List Unsched)
  | [], _, _, _ => some ([], [])
  | t :: ts, counts, cd, cursor =>
    match ptFindSlot allowed limit deadline wsHr weHr t.durationMin counts fuel cd cursor with
    | none => none
    | some (none, cd1, cur1) =>
      match prefGo allowed limit deadline wsHr weHr fuel ts counts cd1 cur1 with
      | none => none
      | some (s, u) => some (s, ⟨t.id, t.task⟩ :: u)
    | some (some (ss, se), cd1, cur1) =>
      match prefGo allowed limit deadline wsHr weHr fuel ts (bump counts cd1) cd1 cur1 with
      | none => none
      | some (s, u) => some (⟨t.task, ss, se⟩ :: s, u)

/-- `_schedule_by_preferred_time` (source lines 130-235).  `wsHr, weHr` are
the pair the source reads from `PREFERRED_WINDOWS[preferred_time]` (line
150).  The initial date and cursor follow source lines 159-175. -/
def schedule_by_preferred_time (allowed : List ℕ) (limit deadline wsHr weHr fuel : ℕ)
    (tasks : List Task) (startDt : ℕ) : Option (List Event × List Unsched) :=
  match next_allowed_date_from allowed (dateOf startDt) with
  | none => none
  | some cd0 =>
    prefGo allowed limit deadline wsHr weHr fuel tasks (fun _ => 0) cd0
      (if cd0 = dateOf startDt ∧ wsHr ≤ hourOf startDt ∧ hourOf startDt < weHr
       then startDt else atHour cd0 wsHr)

/-! ### `schedule_tasks` (source lines 34-127) and the gateway model -/

/-- Modelled from the spec: the `service.events().list(timeMin=next_day, ...)`
existence probe of source lines 74-80.  The query has a lower time bound but
no upper bound, so it reports any calendar event that ends after `t`. -/
def eventsExistFrom (cal : List Interval) (t : ℕ) : Bool :=
  cal.any fun e => decide (t < e.2)

/-- Modelled from the spec: `CalendarGateway.FetchBusy` (spec section 6), the
`freebusy().query` of source lines 102-115 — the busy intervals of the
calendar clipped to `[lo, hi)`. -/
def fetchBusy (cal : List Interval) (lo hi : ℕ) : List Interval :=
  cal.filterMap fun e =>
    if max e.1 lo < min e.2 hi then some (max e.1 lo, min e.2 hi) else none

/-- Modelled from the spec: whether any busy interval exists in the bounded
range `[lo, hi)` — the query the spec's ModeSelector (section 4.3) describes. -/
def anyBusyInRange (cal : List Interval) (lo hi : ℕ) : Bool :=
  cal.any fun e => decide (max e.1 lo < min e.2 hi)

/-- `preferred_time in PREFERRED_WINDOWS` for an optional preferred time. -/
def prefWindowFor (pt : Option String) : Option (ℕ × ℕ) :=
  match pt with
  | some s => PREFERRED_WINDOWS s
  | none => none

/-- The mode condition of source line 85:
`not existing and (preferred_time in PREFERRED_WINDOWS)`, where `existing`
comes from the unbounded `events().list` probe. -/
def modeIsPreferred (cal : List Interval) (startT : ℕ) (pt : Option String) : Bool :=
  !(eventsExistFrom cal (atHour (dateOf (startT + 1440)) WORK_START))
    && (prefWindowFor pt).isSome

/-- Follows the spec's words (section 4.3 ModeSelector): preferred mode iff
no busy interval exists in the bounded range `[horizonStart, deadline+1day)`
and a preferred window was supplied.  Stated for comparison with
`modeIsPreferred`, the condition the code actually evaluates. -/
def specSelectsPreferred (cal : List Interval) (startT deadline : ℕ)
    (pt : Option String) : Bool :=
  !(anyBusyInRange cal (atHour (dateOf (startT + 1440)) WORK_START) ((deadline + 1) * 1440))
    && (prefWindowFor pt).isSome

/-- The allowed weekday-index set of source lines 66-70 (a nonempty
`allowed_days` list is filtered through `CODE_TO_WEEKDAY`; `None` or an
empty list defaults to Monday-Friday). -/
def allowedIndices (allowedDays : Option (List String)) : List ℕ :=
  match allowedDays with
  | some l => if l.isEmpty then [0, 1, 2, 3, 4] else l.filterMap CODE_TO_WEEKDAY
  | none => [0, 1, 2, 3, 4]

/-- Outcome of one `schedule_tasks` call: an unhandled exception, a
computation that never finishes, or a (scheduled, unscheduled) pair. -/
inductive SchedResult where
  | error : SchedResult
  | fuelOut : SchedResult
  | done : List Event → List Unsched → SchedResult
deriving DecidableEq

/-- Lift an engine result to a `SchedResult`. -/
def ofRun : Option (List Event × List Unsched) → SchedResult
  | none => .fuelOut
  | some (s, u) => .done s u

/-- `schedule_tasks` (source lines 34-127).  The start is shifted to the next
day at 9:00 (lines 53-57); a malformed deadline (`deadlineIn = none`) makes
`datetime.fromisoformat` raise, which nothing catches (line 60); the mode is
chosen by the unbounded existence probe (lines 72-93); free/busy mode fetches
the busy intervals over `[next_day, deadline+1day)` (lines 96-127). -/
def schedule_tasks (fuel : ℕ) (cal : List Interval) (tasks : List Task)
    (startT : ℕ) (deadlineIn : Option ℕ) (maxPerDay : Option ℕ)
    (allowedDays : Option (List String)) (preferredTime : Option String) :
    SchedResult :=
  match deadlineIn with
  | none => .error
  | some deadline =>
    let nextDay := atHour (dateOf (startT + 1440)) WORK_START
    let limit := maxPerDay.getD DEFAULT_MAX_TASKS_PER_DAY
    let allowed := allowedIndices allowedDays
    match prefWindowFor preferredTime with
    | some (wsHr, weHr) =>
      if eventsExistFrom cal nextDay then
        ofRun (schedule_by_freebusy allowed limit deadline fuel tasks
          (fetchBusy cal nextDay ((deadline + 1) * 1440)) nextDay)
      else
        ofRun (schedule_by_preferred_time allowed limit deadline wsHr weHr fuel tasks nextDay)
    | none =>
      ofRun (schedule_by_freebusy allowed limit deadline fuel tasks
        (fetchBusy cal nextDay ((deadline + 1) * 1440)) nextDay)

/-- `create_calendar_events` (source lines 333-346).  `ins` models the
external insert call (`none` = the insert raises).  The first component is
the returned id list or the escaped exception; the second records the events
whose insert call was actually executed. -/
def create_calendar_events (ins : Event → Option ℕ) :
    List Event → Except Unit (List ℕ) × List Event
  | [] => (.ok [], [])
  | ev :: rest =>
    match ins ev with
    | none => (.error (), [ev])
    | some i =>
      let r := create_calendar_events ins rest
      (r.1.map fun ids => i :: ids, ev :: r.2)

/-- Step 1 of `decide_total_tasks` (src/app.py lines 184-190): days until the
deadline, falling back to 7 when the deadline string does not parse. -/
def daysLeft (today : ℕ) (deadline : Option ℕ) : ℕ :=
  match deadline with
  | some d => max (d - today) 1
  | none => 7

/-! ### Predicates the claims are stated with -/

/-- The two events' intervals, each extended by the trailing buffer, do not
intersect. -/
def buffDisjoint (a b : Event) : Prop :=
  a.stop + BUFFER ≤ b.start ∨ b.stop + BUFFER ≤ a.start

/-- The later-placed event `b` does not intersect the earlier-placed event
`a` extended by its trailing buffer. -/
def extDisjoint (a b : Event) : Prop :=
  a.stop + BUFFER ≤ b.start ∨ b.stop ≤ a.start

/-- The two events' bare intervals do not intersect. -/
def slotsDisjoint (a b : Event) : Prop :=
  a.stop ≤ b.start ∨ b.stop ≤ a.start

/-- Event `b` starts no earlier than the end-plus-buffer of event `a`. -/
def afterBuffer (a b : Event) : Prop :=
  a.stop + BUFFER ≤ b.start

/-- Event `b`'s calendar day is no earlier than event `a`'s. -/
def dayMono (a b : Event) : Prop :=
  dateOf a.start ≤ dateOf b.start

instance : DecidableRel buffDisjoint :=
  fun a b => inferInstanceAs (Decidable (a.stop + BUFFER ≤ b.start ∨ b.stop + BUFFER ≤ a.start))

instance : DecidableRel extDisjoint :=
  fun a b => inferInstanceAs (Decidable (a.stop + BUFFER ≤ b.start ∨ b.stop ≤ a.start))

instance : DecidableRel slotsDisjoint :=
  fun a b => inferInstanceAs (Decidable (a.stop ≤ b.start ∨ b.stop ≤ a.start))

instance : DecidableRel afterBuffer := fun a b => Nat.decLe (a.stop + BUFFER) b.start

instance : DecidableRel dayMono := fun a b => Nat.decLe (dateOf a.start) (dateOf b.start)

/-- Number of scheduled events starting on day `d`. -/
def placedOn (sched : List Event) (d : ℕ) : ℕ :=
  sched.countP fun ev => dateOf ev.start == d

/-- A slot that lies inside its own day's 9:00-22:00 window and starts
strictly before 22:00. -/
def SlotOK (s e : ℕ) : Prop :=
  atHour (dateOf s) WORK_START ≤ s ∧ s ≤ e ∧ e ≤ atHour (dateOf s) WORK_END
    ∧ s < atHour (dateOf s) WORK_END

/-! ### Correctness of the per-day carve-out -/

theorem firstFit_spec {duration : ℕ} {l : List Interval} {s e : ℕ}
    (h : firstFit duration l = some (s, e)) :
    e = s + duration ∧ ∃ w ∈ l, s = w.1 ∧ s + duration ≤ w.2 := by
  induction l with
  | nil => simp [firstFit] at h
  | cons w rest ih =>
    rw [firstFit] at h
    split at h
    · simp only [Option.some.injEq, Prod.mk.injEq] at h
      obtain ⟨hs, he⟩ := h
      subst hs
      subst he
      exact ⟨rfl, w, List.mem_cons_self _ _, rfl, by assumption⟩
    · obtain ⟨he, w', hw', hs, hf⟩ := ih h
      exact ⟨he, w', List.mem_cons_of_mem _ hw', hs, hf⟩

theorem carve_spec (dayEnd : ℕ) (l : List Interval) (cursor : ℕ)
    (hp : List.Pairwise startLE l) (hub : ∀ b ∈ l, b.1 ≤ dayEnd) :
    ∀ w ∈ carve cursor dayEnd l,
      cursor ≤ w.1 ∧ w.1 < w.2 ∧ w.2 ≤ dayEnd ∧ ∀ b ∈ l, w.2 ≤ b.1 ∨ b.2 ≤ w.1 := by
  induction l generalizing cursor with
  | nil =>
    intro w hw
    rw [carve] at hw
    split at hw
    · rcases List.mem_singleton.mp hw with rfl
      exact ⟨le_refl _, by assumption, le_refl _, by simp⟩
    · simp at hw
  | cons b rest ih =>
    intro w hw
    rw [carve] at hw
    have hp' := List.pairwise_cons.mp hp
    rcases List.mem_append.mp hw with hw | hw
    · split at hw
      · rcases List.mem_singleton.mp hw with rfl
        refine ⟨le_refl _, by assumption, hub b (List.mem_cons_self _ _), fun b' hb' => ?_⟩
        rcases List.mem_cons.mp hb' with rfl | hb'
        · exact Or.inl (le_refl _)
        · exact Or.inl (hp'.1 b' hb')
      · simp at hw
    · obtain ⟨h1, h2, h3, h4⟩ :=
        ih (max cursor b.2) hp'.2 (fun x hx => hub x (List.mem_cons_of_mem _ hx)) w hw
      refine ⟨le_trans (le_max_left _ _) h1, h2, h3, fun b' hb' => ?_⟩
      rcases List.mem_cons.mp hb' with rfl | hb'
      · exact Or.inr (le_trans (le_max_right _ _) h1)
      · exact h4 b' hb'

theorem sortSlices_pairwise (l : List Interval) : List.Pairwise startLE (sortSlices l) :=
  List.sorted_insertionSort startLE l

theorem mem_sortSlices {l : List Interval} {x : Interval} : x ∈ sortSlices l ↔ x ∈ l :=
  List.mem_insertionSort startLE

theorem daySlices_mem_bounds {busy : List Interval} {d : ℕ} {x : Interval}
    (hx : x ∈ daySlices busy d) :
    atHour d WORK_START ≤ x.1 ∧ x.1 < x.2 ∧ x.2 ≤ atHour d WORK_END := by
  rw [daySlices, List.mem_filterMap] at hx
  obtain ⟨b, _, hb⟩ := hx
  split at hb
  · split at hb
    · simp only [Option.some.injEq] at hb
      subst hb
      exact ⟨le_max_right _ _, by assumption, min_le_right _ _⟩
    · simp at hb
  · simp at hb

theorem daySlices_of_confined {busy : List Interval} {d s0 e1 : ℕ}
    (hmem : (s0, e1) ∈ busy)
    (h1 : atHour d WORK_START ≤ s0) (h2 : s0 < atHour d WORK_END) (h3 : s0 < e1) :
    (s0, min e1 (atHour d WORK_END)) ∈ daySlices busy d := by
  rw [daySlices, List.mem_filterMap]
  refine ⟨(s0, e1), hmem, ?_⟩
  have hc : dateOf s0 ≤ d ∧ d ≤ dateOf e1 := by
    simp only [dateOf, atHour, WORK_START, WORK_END] at h1 h2 h3 ⊢
    omega
  rw [if_pos hc]
  have hmax : max s0 (atHour d WORK_START) = s0 := max_eq_left h1
  simp only [hmax]
  rw [if_pos (lt_min h3 h2)]

theorem findOnDay_spec {busy : List Interval} {duration d s e : ℕ}
    (h : findOnDay busy duration d = some (s, e)) :
    e = s + duration ∧ atHour d WORK_START ≤ s ∧ s < atHour d WORK_END ∧
      e ≤ atHour d WORK_END ∧ ∀ x ∈ daySlices busy d, e ≤ x.1 ∨ x.2 ≤ s := by
  rw [findOnDay, freeWindows] at h
  obtain ⟨he, w, hw, hs, hf⟩ := firstFit_spec h
  have hub : ∀ b ∈ sortSlices (daySlices busy d), b.1 ≤ atHour d WORK_END := by
    intro b hb
    have hbb := daySlices_mem_bounds (mem_sortSlices.mp hb)
    omega
  obtain ⟨h1, h2, h3, h4⟩ :=
    carve_spec (atHour d WORK_END) (sortSlices (daySlices busy d))
      (atHour d WORK_START) (sortSlices_pairwise _) hub w hw
  subst hs
  subst he
  refine ⟨rfl, h1, lt_of_lt_of_le h2 h3, le_trans hf h3, fun x hx => ?_⟩
  rcases h4 x (mem_sortSlices.mpr hx) with hd | hd
  · exact Or.inl (le_trans hf hd)
  · exact Or.inr hd

theorem slot_avoids_prior {busy : List Interval} {duration d s e s0 e0 : ℕ}
    (hok : SlotOK s0 e0) (hmem : (s0, e0 + BUFFER) ∈ busy)
    (h : findOnDay busy duration d = some (s, e)) :
    e ≤ s0 ∨ e0 + BUFFER ≤ s := by
  obtain ⟨he, hs1, hs2, he2, hdisj⟩ := findOnDay_spec h
  obtain ⟨hposs, hse, hee, hslt⟩ := hok
  by_cases hdd : d = dateOf s0
  · rw [← hdd] at hposs hslt hee
    have h3 : s0 < e0 + BUFFER := by
      simp only [BUFFER]
      omega
    have hslice := daySlices_of_confined hmem hposs hslt h3
    rcases hdisj _ hslice with hd | hd
    · exact Or.inl hd
    · rcases le_total (e0 + BUFFER) (atHour d WORK_END) with hm | hm
      · rw [min_eq_left hm] at hd
        exact Or.inr hd
      · rw [min_eq_right hm] at hd
        omega
  · simp only [atHour, dateOf, WORK_START, WORK_END, BUFFER] at *
    omega

/-! ### The weekday-skipping loops -/

theorem nextAllowedDay_some {allowed : List ℕ} :
    ∀ {fuel d d1 : ℕ}, nextAllowedDay allowed fuel d = some d1 →
      d ≤ d1 ∧ d1 % 7 ∈ allowed := by
  intro fuel
  induction fuel with
  | zero => intro d d1 h; simp [nextAllowedDay] at h
  | succ n ih =>
    intro d d1 h
    rw [nextAllowedDay] at h
    split at h
    · simp only [Option.some.injEq] at h
      subst h
      exact ⟨le_refl _, by assumption⟩
    · obtain ⟨h1, h2⟩ := ih h
      exact ⟨by omega, h2⟩

theorem nextAllowedDay_nil : ∀ (fuel d : ℕ), nextAllowedDay ([] : List ℕ) fuel d = none := by
  intro fuel
  induction fuel with
  | zero => intro d; rfl
  | succ n ih => intro d; rw [nextAllowedDay, if_neg (by simp)]; exact ih (d + 1)

theorem next_allowed_probe_some {allowed : List ℕ} {dt p : ℕ}
    (h : next_allowed_probe allowed dt = some p) :
    dateOf dt < dateOf p ∧ dateOf p % 7 ∈ allowed := by
  rw [next_allowed_probe, Option.map_eq_some'] at h
  obtain ⟨d1, hd1, hp⟩ := h
  obtain ⟨h1, h2⟩ := nextAllowedDay_some hd1
  subst hp
  have hdp : dateOf (atHour d1 WORK_START) = d1 := by
    simp only [dateOf, atHour, WORK_START]
    omega
  rw [hdp]
  exact ⟨by omega, h2⟩

/-! ### Soundness of the free/busy per-task scan -/

theorem fbFindSlot_placed {allowed : List ℕ} {limit deadline : ℕ} {busy : List Interval}
    {counts : ℕ → ℕ} {duration : ℕ} :
    ∀ {fuel probe ss se p1 : ℕ},
      fbFindSlot allowed limit deadline busy counts duration fuel probe
        = some (some (ss, se), p1) →
      ∃ d, dateOf probe ≤ d ∧ d ≤ deadline ∧ counts d < limit ∧
        findOnDay busy duration d = some (ss, se) := by
  intro fuel
  induction fuel with
  | zero =>
    intro probe ss se p1 h
    rw [fbFindSlot] at h
    split at h
    · simp at h
    · simp at h
  | succ n ih =>
    intro probe ss se p1 h
    rw [fbFindSlot] at h
    split at h
    · simp at h
    · rename_i hnd
      cases hds : fbDaySlot allowed limit busy counts duration (dateOf probe) with
      | some s1 =>
        simp only [hds, Option.some.injEq, Prod.mk.injEq] at h
        obtain ⟨h1, _⟩ := h
        subst h1
        rw [fbDaySlot] at hds
        split at hds
        · rename_i hcond
          exact ⟨dateOf probe, le_refl _, by omega, hcond.2, hds⟩
        · simp at hds
      | none =>
        simp only [hds] at h
        cases hnp : next_allowed_probe allowed probe with
        | none => simp [hnp] at h
        | some p =>
          simp only [hnp] at h
          obtain ⟨d, hd1, hd2, hd3, hd4⟩ := ih h
          obtain ⟨hm, _⟩ := next_allowed_probe_some hnp
          exact ⟨d, by omega, hd2, hd3, hd4⟩

theorem fbFindSlot_unplaced {allowed : List ℕ} {limit deadline : ℕ} {busy : List Interval}
    {counts : ℕ → ℕ} {duration : ℕ} :
    ∀ {fuel probe p1 : ℕ},
      fbFindSlot allowed limit deadline busy counts duration fuel probe = some (none, p1) →
      dateOf probe ≤ dateOf p1 := by
  intro fuel
  induction fuel with
  | zero =>
    intro probe p1 h
    rw [fbFindSlot] at h
    split at h
    · simp only [Option.some.injEq, Prod.mk.injEq] at h
      obtain ⟨_, rfl⟩ := h
      exact le_refl _
    · simp at h
  | succ n ih =>
    intro probe p1 h
    rw [fbFindSlot] at h
    split at h
    · simp only [Option.some.injEq, Prod.mk.injEq] at h
      obtain ⟨_, rfl⟩ := h
      exact le_refl _
    · cases hds : fbDaySlot allowed limit busy counts duration (dateOf probe) with
      | some s1 => simp [hds] at h
      | none =>
        simp only [hds] at h
        cases hnp : next_allowed_probe allowed probe with
        | none => simp [hnp] at h
        | some p =>
          simp only [hnp] at h
          obtain ⟨hm, _⟩ := next_allowed_probe_some hnp
          exact le_trans (le_of_lt hm) (ih h)

theorem fbGo_sound {allowed : List ℕ} {limit deadline fuel : ℕ} :
    ∀ {ts : List Task} {busy : List Interval} {counts : ℕ → ℕ} {probe : ℕ}
      {sched : List Event} {unsched : List Unsched},
      fbGo allowed limit deadline fuel ts busy counts probe = some (sched, unsched) →
      (∀ ev ∈ sched, SlotOK ev.start ev.stop ∧ dateOf probe ≤ dateOf ev.start)
      ∧ (∀ ev ∈ sched, ∀ s0 e0 : ℕ, SlotOK s0 e0 → (s0, e0 + BUFFER) ∈ busy →
          ev.stop ≤ s0 ∨ e0 + BUFFER ≤ ev.start)
      ∧ List.Pairwise extDisjoint sched
      ∧ List.Pairwise dayMono sched
      ∧ (∀ d, placedOn sched d = 0 ∨ counts d + placedOn sched d ≤ limit) := by
  intro ts
  induction ts with
  | nil =>
    intro busy counts probe sched unsched h
    rw [fbGo] at h
    simp only [Option.some.injEq, Prod.mk.injEq] at h
    obtain ⟨rfl, rfl⟩ := h
    exact ⟨by simp, by simp, .nil, .nil, fun d => Or.inl rfl⟩
  | cons t ts ih =>
    intro busy counts probe sched unsched h
    rw [fbGo] at h
    cases hfs : fbFindSlot allowed limit deadline busy counts t.durationMin fuel probe with
    | none => simp [hfs] at h
    | some r =>
      obtain ⟨ropt, p1⟩ := r
      cases ropt with
      | none =>
        simp only [hfs] at h
        cases hgo : fbGo allowed limit deadline fuel ts busy counts p1 with
        | none => simp [hgo] at h
        | some su =>
          obtain ⟨s, u⟩ := su
          simp only [hgo, Option.some.injEq, Prod.mk.injEq] at h
          obtain ⟨rfl, rfl⟩ := h
          obtain ⟨b1, b2, b3, b4, b5⟩ := ih hgo
          have hmono := fbFindSlot_unplaced hfs
          exact ⟨fun ev hev => ⟨(b1 ev hev).1, le_trans hmono (b1 ev hev).2⟩, b2, b3, b4, b5⟩
      | some slot =>
        obtain ⟨ss, se⟩ := slot
        simp only [hfs] at h
        cases hgo : fbGo allowed limit deadline fuel ts (busy ++ [(ss, se + BUFFER)])
            (bump counts (dateOf ss)) (se + BUFFER) with
        | none => simp [hgo] at h
        | some su =>
          obtain ⟨s, u⟩ := su
          simp only [hgo, Option.some.injEq, Prod.mk.injEq] at h
          obtain ⟨rfl, rfl⟩ := h
          obtain ⟨d, hdp, hdd, hdc, hfind⟩ := fbFindSlot_placed hfs
          obtain ⟨heq, hws, hlt, hwe, _⟩ := findOnDay_spec hfind
          have hdss : dateOf ss = d := by
            simp only [dateOf, atHour, WORK_START, WORK_END] at hws hlt ⊢
            omega
          have hok : SlotOK ss se := by
            simp only [SlotOK, hdss]
            exact ⟨hws, by omega, hwe, hlt⟩
          have hprobe1 : dateOf (se + BUFFER) = d := by
            simp only [dateOf, atHour, WORK_START, WORK_END, BUFFER] at hws hwe hlt ⊢
            omega
          obtain ⟨b1, b2, b3, b4, b5⟩ := ih hgo
          refine ⟨?_, ?_, ?_, ?_, ?_⟩
          · intro ev hev
            rcases List.mem_cons.mp hev with rfl | hev
            · refine ⟨hok, ?_⟩
              show dateOf probe ≤ dateOf ss
              omega
            · obtain ⟨hx1, hx2⟩ := b1 ev hev
              rw [hprobe1] at hx2
              exact ⟨hx1, by omega⟩
          · intro ev hev s0 e0 hok0 hm0
            rcases List.mem_cons.mp hev with rfl | hev
            · exact slot_avoids_prior hok0 hm0 hfind
            · exact b2 ev hev s0 e0 hok0 (List.mem_append_left _ hm0)
          · refine List.pairwise_cons.mpr ⟨?_, b3⟩
            intro ev hev
            have hx := b2 ev hev ss se hok
              (List.mem_append_right _ (List.mem_singleton_self _))
            rcases hx with hx | hx
            · exact Or.inr hx
            · exact Or.inl hx
          · refine List.pairwise_cons.mpr ⟨?_, b4⟩
            intro ev hev
            have hx := (b1 ev hev).2
            rw [hprobe1] at hx
            show dateOf ss ≤ dateOf ev.start
            omega
          · intro dd
            by_cases hddq : dd = d
            · subst hddq
              have hpc : placedOn (⟨t.task, ss, se⟩ :: s) dd = placedOn s dd + 1 := by
                simp [placedOn, List.countP_cons, hdss]
              have hbp : bump counts (dateOf ss) dd = counts dd + 1 := by
                simp [bump, hdss]
              rcases b5 dd with h0 | h0
              · right
                rw [hpc, h0]
                omega
              · right
                rw [hbp] at h0
                rw [hpc]
                omega
            · have hpc : placedOn (⟨t.task, ss, se⟩ :: s) dd = placedOn s dd := by
                simp only [placedOn, List.countP_cons]
                have : (dateOf (⟨t.task, ss, se⟩ : Event).start == dd) = false := by
                  simp only [beq_eq_false_iff_ne, ne_eq]
                  show ¬ dateOf ss = dd
                  omega
                rw [this]
                simp [placedOn]
              have hbp : bump counts (dateOf ss) dd = counts dd := by
                simp only [bump, hdss]
                rw [if_neg hddq]
              rcases b5 dd with h0 | h0
              · left
                rw [hpc]
                exact h0
              · right
                rw [hbp] at h0
                rw [hpc]
                exact h0

/-- Days cannot move the probe backward in the free/busy engine: the whole
run keeps the scheduled days non-decreasing and respects the cap. -/
theorem schedule_by_freebusy_sound {allowed : List ℕ} {limit deadline fuel : ℕ}
    {tasks : List Task} {busy : List Interval} {startDt : ℕ}
    {sched : List Event} {unsched : List Unsched}
    (h : schedule_by_freebusy allowed limit deadline fuel tasks busy startDt
      = some (sched, unsched)) :
    List.Pairwise extDisjoint sched ∧ List.Pairwise dayMono sched ∧
      ∀ d, placedOn sched d ≤ limit := by
  rw [schedule_by_freebusy] at h
  obtain ⟨_, _, b3, b4, b5⟩ := fbGo_sound h
  refine ⟨b3, b4, fun d => ?_⟩
  rcases b5 d with h0 | h0
  · omega
  · omega

/-! ### Soundness of the preferred-time per-task scan -/

theorem ptCur1_ge {allowed : List ℕ} {limit : ℕ} {counts : ℕ → ℕ} {wsHr cd cursor : ℕ} :
    cursor ≤ ptCur1 allowed limit counts wsHr cd cursor := by
  rw [ptCur1]
  split
  · exact le_max_left _ _
  · exact le_refl _

theorem ptCur1_le {allowed : List ℕ} {limit : ℕ} {counts : ℕ → ℕ} {wsHr cd cursor : ℕ}
    (h : cursor ≤ atHour (cd + 1) wsHr) :
    ptCur1 allowed limit counts wsHr cd cursor ≤ atHour (cd + 1) wsHr := by
  rw [ptCur1]
  split
  · refine max_le h ?_
    simp only [atHour]
    omega
  · exact h

theorem ptCur1_eligible {allowed : List ℕ} {limit : ℕ} {counts : ℕ → ℕ} {wsHr cd cursor : ℕ}
    (hc : cd % 7 ∈ allowed ∧ counts cd < limit) :
    atHour cd wsHr ≤ ptCur1 allowed limit counts wsHr cd cursor := by
  rw [ptCur1, if_pos hc]
  exact le_max_right _ _

theorem ptFindSlot_spec {allowed : List ℕ} {limit deadline wsHr weHr duration : ℕ}
    {counts : ℕ → ℕ} (hwe : weHr ≤ 23) :
    ∀ {fuel cd cursor : ℕ} {res : Option Interval} {cd1 cur1 : ℕ},
      cursor ≤ atHour (cd + 1) wsHr →
      ptFindSlot allowed limit deadline wsHr weHr duration counts fuel cd cursor
        = some (res, cd1, cur1) →
      cd ≤ cd1 ∧ cur1 ≤ atHour (cd1 + 1) wsHr ∧ cursor ≤ cur1 ∧
        (∀ s e, res = some (s, e) → cursor ≤ s ∧ e = s + duration ∧ cur1 = e + BUFFER ∧
          atHour cd1 wsHr ≤ s ∧ e ≤ atHour cd1 weHr ∧ counts cd1 < limit ∧
          cd1 ≤ deadline ∧ dateOf s = cd1) := by
  intro fuel
  induction fuel with
  | zero =>
    intro cd cursor res cd1 cur1 hinv h
    rw [ptFindSlot] at h
    split at h
    · simp only [Option.some.injEq, Prod.mk.injEq] at h
      obtain ⟨rfl, rfl, rfl⟩ := h
      exact ⟨le_refl _, hinv, le_refl _, fun s e hse => by simp at hse⟩
    · simp at h
  | succ n ih =>
    intro cd cursor res cd1 cur1 hinv h
    rw [ptFindSlot] at h
    split at h
    · simp only [Option.some.injEq, Prod.mk.injEq] at h
      obtain ⟨rfl, rfl, rfl⟩ := h
      exact ⟨le_refl _, hinv, le_refl _, fun s e hse => by simp at hse⟩
    · rename_i hnd
      split at h
      · rename_i hcond
        set c := ptCur1 allowed limit counts wsHr cd cursor with hcdef
        simp only [Option.some.injEq, Prod.mk.injEq] at h
        obtain ⟨rfl, rfl, rfl⟩ := h
        have hc1 : atHour cd wsHr ≤ c := ptCur1_eligible hcond.1
        have hge : cursor ≤ c := ptCur1_ge
        have hfit := hcond.2
        refine ⟨le_refl _, ?_, by omega, fun s e hse => ?_⟩
        · simp only [atHour, BUFFER] at hfit ⊢
          omega
        · simp only [Option.some.injEq, Prod.mk.injEq] at hse
          obtain ⟨rfl, rfl⟩ := hse
          refine ⟨hge, rfl, rfl, hc1, hfit, hcond.1.2, by omega, ?_⟩
          simp only [dateOf, atHour] at hc1 hfit ⊢
          omega
      · cases hna : next_allowed_date_from allowed (cd + 1) with
        | none => simp [hna] at h
        | some nd =>
          simp only [hna] at h
          split at h
          · simp only [Option.some.injEq, Prod.mk.injEq] at h
            obtain ⟨rfl, rfl, rfl⟩ := h
            exact ⟨le_refl _, ptCur1_le hinv, ptCur1_ge, fun s e hse => by simp at hse⟩
          · obtain ⟨hnd1, _⟩ := nextAllowedDay_some hna
            have hmono : atHour (cd + 1) wsHr ≤ atHour nd wsHr := by
              simp only [atHour]
              omega
            have hinv2 : atHour nd wsHr ≤ atHour (nd + 1) wsHr := by
              simp only [atHour]
              omega
            obtain ⟨hc1, hc2, hc3, hc4⟩ := ih hinv2 h
            refine ⟨by omega, hc2, by omega, fun s e hse => ?_⟩
            obtain ⟨hs1, hs2, hs3, hs4, hs5, hs6, hs7, hs8⟩ := hc4 s e hse
            exact ⟨by omega, hs2, hs3, hs4, hs5, hs6, hs7, hs8⟩

theorem prefGo_sound {allowed : List ℕ} {limit deadline wsHr weHr fuel : ℕ}
    (hwe : weHr ≤ 23) :
    ∀ {ts : List Task} {counts : ℕ → ℕ} {cd cursor : ℕ} {sched : List Event}
      {unsched : List Unsched},
      cursor ≤ atHour (cd + 1) wsHr →
      prefGo allowed limit deadline wsHr weHr fuel ts counts cd cursor
        = some (sched, unsched) →
      (∀ ev ∈ sched, cursor ≤ ev.start)
      ∧ List.Pairwise afterBuffer sched
      ∧ (∀ d, placedOn sched d = 0 ∨ counts d + placedOn sched d ≤ limit) := by
  intro ts
  induction ts with
  | nil =>
    intro counts cd cursor sched unsched hinv h
    rw [prefGo] at h
    simp only [Option.some.injEq, Prod.mk.injEq] at h
    obtain ⟨rfl, rfl⟩ := h
    exact ⟨by simp, .nil, fun d => Or.inl rfl⟩
  | cons t ts ih =>
    intro counts cd cursor sched unsched hinv h
    rw [prefGo] at h
    cases hps : ptFindSlot allowed limit deadline wsHr weHr t.durationMin counts fuel cd cursor with
    | none => simp [hps] at h
    | some r =>
      obtain ⟨res, cd1, cur1⟩ := r
      obtain ⟨hcd, hinv1, hcur, hresf⟩ := ptFindSlot_spec hwe hinv hps
      cases res with
      | none =>
        simp only [hps] at h
        cases hgo : prefGo allowed limit deadline wsHr weHr fuel ts counts cd1 cur1 with
        | none => simp [hgo] at h
        | some su =>
          obtain ⟨s, u⟩ := su
          simp only [hgo, Option.some.injEq, Prod.mk.injEq] at h
          obtain ⟨rfl, rfl⟩ := h
          obtain ⟨c1, c2, c3⟩ := ih hinv1 hgo
          exact ⟨fun ev hev => le_trans hcur (c1 ev hev), c2, c3⟩
      | some slot =>
        obtain ⟨ss, se⟩ := slot
        simp only [hps] at h
        obtain ⟨hcs, hse, hcur1e, hws2, hwe2, hcnt, hdl, hds⟩ := hresf ss se rfl
        cases hgo : prefGo allowed limit deadline wsHr weHr fuel ts (bump counts cd1) cd1 cur1 with
        | none => simp [hgo] at h
        | some su =>
          obtain ⟨s, u⟩ := su
          simp only [hgo, Option.some.injEq, Prod.mk.injEq] at h
          obtain ⟨rfl, rfl⟩ := h
          obtain ⟨c1, c2, c3⟩ := ih hinv1 hgo
          refine ⟨?_, ?_, ?_⟩
          · intro ev hev
            rcases List.mem_cons.mp hev with rfl | hev
            · exact hcs
            · exact le_trans hcur (c1 ev hev)
          · refine List.pairwise_cons.mpr ⟨?_, c2⟩
            intro ev hev
            have := c1 ev hev
            show se + BUFFER ≤ ev.start
            omega
          · intro dd
            by_cases hddq : dd = cd1
            · subst hddq
              have hpc : placedOn (⟨t.task, ss, se⟩ :: s) dd = placedOn s dd + 1 := by
                simp [placedOn, List.countP_cons, hds]
              have hbp : bump counts dd dd = counts dd + 1 := by
                simp [bump]
              rcases c3 dd with h0 | h0
              · right
                rw [hpc, h0]
                omega
              · right
                rw [hbp] at h0
                rw [hpc]
                omega
            · have hpc : placedOn (⟨t.task, ss, se⟩ :: s) dd = placedOn s dd := by
                simp only [placedOn, List.countP_cons]
                have : (dateOf (⟨t.task, ss, se⟩ : Event).start == dd) = false := by
                  simp only [beq_eq_false_iff_ne, ne_eq]
                  show ¬ dateOf ss = dd
                  omega
                rw [this]
                simp [placedOn]
              have hbp : bump counts cd1 dd = counts dd := by
                simp only [bump]
                rw [if_neg hddq]
              rcases c3 dd with h0 | h0
              · left
                rw [hpc]
                exact h0
              · right
                rw [hbp] at h0
                rw [hpc]
                exact h0

theorem schedule_by_preferred_time_sound {allowed : List ℕ}
    {limit deadline wsHr weHr fuel : ℕ} {tasks : List Task} {startDt : ℕ}
    {sched : List Event} {unsched : List Unsched} (hwe : weHr ≤ 23)
    (h : schedule_by_preferred_time allowed limit deadline wsHr weHr fuel tasks startDt
      = some (sched, unsched)) :
    List.Pairwise afterBuffer sched ∧ ∀ d, placedOn sched d ≤ limit := by
  rw [schedule_by_preferred_time] at h
  cases hna : next_allowed_date_from allowed (dateOf startDt) with
  | none => simp [hna] at h
  | some cd0 =>
    simp only [hna] at h
    have hinv : (if cd0 = dateOf startDt ∧ wsHr ≤ hourOf startDt ∧ hourOf startDt < weHr
        then startDt else atHour cd0 wsHr) ≤ atHour (cd0 + 1) wsHr := by
      split
      · rename_i hc
        rw [hc.1]
        simp only [dateOf, atHour]
        omega
      · simp only [atHour]
        omega
    obtain ⟨_, c2, c3⟩ := prefGo_sound hwe hinv h
    refine ⟨c2, fun d => ?_⟩
    rcases c3 d with h0 | h0
    · omega
    · omega

/-! ### The mode dispatch of `schedule_tasks` -/

theorem ofRun_done {o : Option (List Event × List Unsched)} {s : List Event}
    {u : List Unsched} (h : ofRun o = SchedResult.done s u) : o = some (s, u) := by
  cases o with
  | none => simp [ofRun] at h
  | some r =>
    obtain ⟨a, b⟩ := r
    simp only [ofRun, SchedResult.done.injEq] at h
    rw [h.1, h.2]

theorem PREFERRED_WINDOWS_bounds {s : String} {w : ℕ × ℕ}
    (h : PREFERRED_WINDOWS s = some w) : w.2 ≤ 23 ∧ w.2 * 60 < w.1 * 60 + 840 := by
  rw [PREFERRED_WINDOWS] at h
  split_ifs at h
  all_goals
    first
    | exact Option.noConfusion h
    | · injection h with h1
        subst h1
        decide

theorem prefWindowFor_bounds {pt : Option String} {w : ℕ × ℕ}
    (h : prefWindowFor pt = some w) : w.2 ≤ 23 ∧ w.2 * 60 < w.1 * 60 + 840 := by
  cases pt with
  | none => simp [prefWindowFor] at h
  | some s => exact PREFERRED_WINDOWS_bounds h

/-- Any `.done` outcome of `schedule_tasks` came from one of the two engines,
run with the shifted start, the decoded policy and (for free/busy mode) the
fetched busy set. -/
theorem schedule_tasks_done {fuel : ℕ} {cal : List Interval} {tasks : List Task}
    {startT dl : ℕ} {mpd : Option ℕ} {ad : Option (List String)} {pt : Option String}
    {sched : List Event} {unsched : List Unsched}
    (h : schedule_tasks fuel cal tasks startT (some dl) mpd ad pt
      = SchedResult.done sched unsched) :
    (∃ busy, schedule_by_freebusy (allowedIndices ad) (mpd.getD DEFAULT_MAX_TASKS_PER_DAY)
        dl fuel tasks busy (atHour (dateOf (startT + 1440)) WORK_START) = some (sched, unsched))
    ∨ (∃ wsHr weHr, prefWindowFor pt = some (wsHr, weHr) ∧
        schedule_by_preferred_time (allowedIndices ad) (mpd.getD DEFAULT_MAX_TASKS_PER_DAY)
          dl wsHr weHr fuel tasks (atHour (dateOf (startT + 1440)) WORK_START)
          = some (sched, unsched)) := by
  rw [schedule_tasks] at h
  cases hpw : prefWindowFor pt with
  | none =>
    simp only [hpw] at h
    exact Or.inl ⟨_, ofRun_done h⟩
  | some w =>
    obtain ⟨a, b⟩ := w
    simp only [hpw] at h
    split at h
    · exact Or.inl ⟨_, ofRun_done h⟩
    · exact Or.inr ⟨a, b, rfl, ofRun_done h⟩

/-! ### No day can host a 14-hour task -/

theorem fbFindSlot_big {allowed : List ℕ} {limit deadline : ℕ} {busy : List Interval}
    {counts : ℕ → ℕ} {duration : ℕ} (hdur : 780 < duration) :
    ∀ {fuel probe : ℕ} {res : Option Interval} {p1 : ℕ},
      fbFindSlot allowed limit deadline busy counts duration fuel probe = some (res, p1) →
      res = none := by
  intro fuel
  induction fuel with
  | zero =>
    intro probe res p1 h
    rw [fbFindSlot] at h
    split at h
    · simp only [Option.some.injEq, Prod.mk.injEq] at h
      exact h.1.symm
    · simp at h
  | succ n ih =>
    intro probe res p1 h
    rw [fbFindSlot] at h
    split at h
    · simp only [Option.some.injEq, Prod.mk.injEq] at h
      exact h.1.symm
    · cases hds : fbDaySlot allowed limit busy counts duration (dateOf probe) with
      | some s1 =>
        exfalso
        rw [fbDaySlot] at hds
        split at hds
        · obtain ⟨a, b⟩ := s1
          obtain ⟨heq, hws, _, hwe, _⟩ := findOnDay_spec hds
          simp only [atHour, WORK_START, WORK_END] at hws hwe
          omega
        · simp at hds
      | none =>
        simp only [hds] at h
        cases hnp : next_allowed_probe allowed probe with
        | none => simp [hnp] at h
        | some p =>
          simp only [hnp] at h
          exact ih h

theorem ptFindSlot_big {allowed : List ℕ} {limit deadline wsHr weHr duration : ℕ}
    {counts : ℕ → ℕ} (hbig : weHr * 60 < wsHr * 60 + duration) :
    ∀ {fuel cd cursor : ℕ} {res : Option Interval} {cd1 cur1 : ℕ},
      ptFindSlot allowed limit deadline wsHr weHr duration counts fuel cd cursor
        = some (res, cd1, cur1) → res = none := by
  intro fuel
  induction fuel with
  | zero =>
    intro cd cursor res cd1 cur1 h
    rw [ptFindSlot] at h
    split at h
    · simp only [Option.some.injEq, Prod.mk.injEq] at h
      exact h.1.symm
    · simp at h
  | succ n ih =>
    intro cd cursor res cd1 cur1 h
    rw [ptFindSlot] at h
    split at h
    · simp only [Option.some.injEq, Prod.mk.injEq] at h
      exact h.1.symm
    · split at h
      · exfalso
        rename_i hcond
        have := @ptCur1_eligible allowed limit counts wsHr cd cursor hcond.1
        have hfit := hcond.2
        simp only [atHour] at this hfit
        omega
      · cases hna : next_allowed_date_from allowed (cd + 1) with
        | none => simp [hna] at h
        | some nd =>
          simp only [hna] at h
          split at h
          · simp only [Option.some.injEq, Prod.mk.injEq] at h
            exact h.1.symm
          · exact ih h

theorem fbGo_big {allowed : List ℕ} {limit deadline fuel : ℕ} {t : Task}
    {busy : List Interval} {counts : ℕ → ℕ} {probe : ℕ}
    {sched : List Event} {unsched : List Unsched} (hdur : 780 < t.durationMin)
    (h : fbGo allowed limit deadline fuel [t] busy counts probe = some (sched, unsched)) :
    sched = [] ∧ unsched = [⟨t.id, t.task⟩] := by
  rw [fbGo] at h
  cases hfs : fbFindSlot allowed limit deadline busy counts t.durationMin fuel probe with
  | none => simp [hfs] at h
  | some r =>
    obtain ⟨ropt, p1⟩ := r
    cases ropt with
    | some slot =>
      exact absurd (fbFindSlot_big hdur hfs) (by simp)
    | none =>
      simp only [hfs, fbGo, Option.some.injEq, Prod.mk.injEq] at h
      exact ⟨h.1.symm, h.2.symm⟩

theorem prefGo_big {allowed : List ℕ} {limit deadline wsHr weHr fuel : ℕ} {t : Task}
    {counts : ℕ → ℕ} {cd cursor : ℕ} {sched : List Event} {unsched : List Unsched}
    (hbig : weHr * 60 < wsHr * 60 + t.durationMin)
    (h : prefGo allowed limit deadline wsHr weHr fuel [t] counts cd cursor
      = some (sched, unsched)) :
    sched = [] ∧ unsched = [⟨t.id, t.task⟩] := by
  rw [prefGo] at h
  cases hps : ptFindSlot allowed limit deadline wsHr weHr t.durationMin counts fuel cd cursor with
  | none => simp [hps] at h
  | some r =>
    obtain ⟨res, cd1, cur1⟩ := r
    cases res with
    | some slot =>
      exact absurd (ptFindSlot_big hbig hps) (by simp)
    | none =>
      simp only [hps, prefGo, Option.some.injEq, Prod.mk.injEq] at h
      exact ⟨h.1.symm, h.2.symm⟩

theorem schedule_by_freebusy_big {allowed : List ℕ} {limit deadline fuel : ℕ} {t : Task}
    {busy : List Interval} {startDt : ℕ} {sched : List Event} {unsched : List Unsched}
    (hdur : 780 < t.durationMin)
    (h : schedule_by_freebusy allowed limit deadline fuel [t] busy startDt
      = some (sched, unsched)) :
    sched = [] ∧ unsched = [⟨t.id, t.task⟩] := by
  rw [schedule_by_freebusy] at h
  exact fbGo_big hdur h

theorem schedule_by_preferred_time_big {allowed : List ℕ}
    {limit deadline wsHr weHr fuel : ℕ} {t : Task} {startDt : ℕ}
    {sched : List Event} {unsched : List Unsched}
    (hbig : weHr * 60 < wsHr * 60 + t.durationMin)
    (h : schedule_by_preferred_time allowed limit deadline wsHr weHr fuel [t] startDt
      = some (sched, unsched)) :
    sched = [] ∧ unsched = [⟨t.id, t.task⟩] := by
  rw [schedule_by_preferred_time] at h
  cases hna : next_allowed_date_from allowed (dateOf startDt) with
  | none => simp [hna] at h
  | some cd0 =>
    simp only [hna] at h
    exact prefGo_big hbig h

/-! ### An empty allowed-weekday set makes both engines loop forever -/

theorem hourOf_atHour (d h : ℕ) (hh : h < 24) : hourOf (atHour d h) = h := by
  simp only [hourOf, atHour]
  omega

theorem dateOf_atHour (d h : ℕ) (hh : h < 24) : dateOf (atHour d h) = d := by
  simp only [dateOf, atHour]
  omega

theorem fbGo_empty_allowed {limit deadline fuel : ℕ} {t : Task} {ts : List Task}
    {busy : List Interval} {counts : ℕ → ℕ} {probe : ℕ} (hd : dateOf probe ≤ deadline) :
    fbGo ([] : List ℕ) limit deadline fuel (t :: ts) busy counts probe = none := by
  rw [fbGo]
  have hfs : fbFindSlot ([] : List ℕ) limit deadline busy counts t.durationMin fuel probe
      = none := by
    cases fuel with
    | zero =>
      rw [fbFindSlot, if_neg (by omega)]
    | succ n =>
      rw [fbFindSlot, if_neg (by omega)]
      have hds : fbDaySlot ([] : List ℕ) limit busy counts t.durationMin (dateOf probe)
          = none := by
        rw [fbDaySlot, if_neg (by simp)]
      have hnp : next_allowed_probe ([] : List ℕ) probe = none := by
        rw [next_allowed_probe, nextAllowedDay_nil]
        rfl
      simp only [hds, hnp]
  simp only [hfs]

theorem schedule_by_preferred_time_empty_allowed {limit deadline wsHr weHr fuel : ℕ}
    {tasks : List Task} {startDt : ℕ} :
    schedule_by_preferred_time ([] : List ℕ) limit deadline wsHr weHr fuel tasks startDt
      = none := by
  rw [schedule_by_preferred_time]
  have hna : next_allowed_date_from ([] : List ℕ) (dateOf startDt) = none :=
    nextAllowedDay_nil 7 _
  simp only [hna]

/-! ### The claims -/

/-- C1, counterexample.  With the busy interval Monday 9:30-10:00 (day 7 is a
Monday; 10650 = Mon 9:30), a 2-hour task and then a 30-minute task, the run
places task 1 at Mon 10:00-12:00 and then back-fills task 2 into the earlier
9:00-9:30 gap of the same day; the two intervals extended by the 1-hour
trailing buffer intersect on Mon 10:00-10:30, so the no-overlap claim is
false as stated. -/
theorem C1_counterexample :
    schedule_tasks 20 [(10650, 10680)] [⟨1, "t1", 120⟩, ⟨2, "t2", 30⟩]
      8640 (some 11) none none none
      = SchedResult.done [⟨"t1", 10680, 10800⟩, ⟨"t2", 10620, 10650⟩] []
    ∧ ¬ buffDisjoint ⟨"t1", 10680, 10800⟩ ⟨"t2", 10620, 10650⟩ :=
  ⟨rfl, by decide⟩

/-- C1 (amended): for every scheduling run that finishes, in both modes, the
interval of a LATER-placed event never intersects the interval of an
earlier-placed event extended by the trailing buffer (the later event's own
trailing buffer, however, may overlap an earlier event, as the
counterexample shows). -/
theorem C1_no_overlap_amended :
    ∀ (fuel : ℕ) (cal : List Interval) (tasks : List Task) (startT dl : ℕ)
      (mpd : Option ℕ) (ad : Option (List String)) (pt : Option String)
      (sched : List Event) (unsched : List Unsched),
      schedule_tasks fuel cal tasks startT (some dl) mpd ad pt
        = SchedResult.done sched unsched →
      List.Pairwise extDisjoint sched := by
  intro fuel cal tasks startT dl mpd ad pt sched unsched h
  rcases schedule_tasks_done h with ⟨busy, hrun⟩ | ⟨a, b, hpw, hrun⟩
  · exact (schedule_by_freebusy_sound hrun).1
  · have hwe := (prefWindowFor_bounds hpw).1
    exact ((schedule_by_preferred_time_sound hwe hrun).1).imp fun hx => Or.inl hx

/-- C1, witness for the amended theorem at a concrete input. -/
theorem C1_witness :
    schedule_tasks 10 [] [⟨1, "w1", 60⟩] 0 (some 3) none none none
      = SchedResult.done [⟨"w1", 1980, 2040⟩] []
    ∧ List.Pairwise extDisjoint [(⟨"w1", 1980, 2040⟩ : Event)] :=
  ⟨rfl, C1_no_overlap_amended 10 [] [⟨1, "w1", 60⟩] 0 3 none none none
    [⟨"w1", 1980, 2040⟩] [] rfl⟩

/-- C2, counterexample.  Same busy Monday morning as `C1_counterexample` with
a 25-minute second task: task 2 is placed at Mon 9:00, which is earlier than
task 1's end-plus-buffer (Mon 13:00) — the run's cursor moved backward
within the day, refuting the monotone-cursor claim. -/
theorem C2_counterexample :
    schedule_tasks 20 [(10650, 10680)] [⟨1, "u1", 120⟩, ⟨2, "u2", 25⟩]
      8640 (some 11) none none none
      = SchedResult.done [⟨"u1", 10680, 10800⟩, ⟨"u2", 10620, 10645⟩] []
    ∧ ¬ afterBuffer ⟨"u1", 10680, 10800⟩ ⟨"u2", 10620, 10645⟩ :=
  ⟨rfl, by decide⟩

/-- C2 (amended): in preferred-window mode the claim holds — each
successively placed task starts at or after the previous task's
end-plus-buffer; in free/busy mode only the day is monotone — the scan never
returns to an earlier day, but within a day a later task may be back-filled
before the previous task's end-plus-buffer. -/
theorem C2_cursor_amended :
    (∀ (allowed : List ℕ) (limit dl wsHr weHr fuel : ℕ) (tasks : List Task)
       (startDt : ℕ) (sched : List Event) (unsched : List Unsched), weHr ≤ 23 →
       schedule_by_preferred_time allowed limit dl wsHr weHr fuel tasks startDt
         = some (sched, unsched) →
       List.Pairwise afterBuffer sched)
    ∧ (∀ (allowed : List ℕ) (limit dl fuel : ℕ) (tasks : List Task)
       (busy : List Interval) (startDt : ℕ) (sched : List Event)
       (unsched : List Unsched),
       schedule_by_freebusy allowed limit dl fuel tasks busy startDt
         = some (sched, unsched) →
       List.Pairwise dayMono sched) :=
  ⟨fun _ _ _ _ _ _ _ _ _ _ hwe h => (schedule_by_preferred_time_sound hwe h).1,
   fun _ _ _ _ _ _ _ _ _ h => (schedule_by_freebusy_sound h).2.1⟩

/-- C2, witness for the amended theorem: a preferred-window run with the
morning window and cap 1, and a free/busy run, at concrete inputs. -/
theorem C2_witness :
    ((12 : ℕ) ≤ 23
     ∧ schedule_by_preferred_time [0, 1, 2, 3, 4] 1 9 8 12 10
         [⟨1, "wa", 180⟩, ⟨2, "wb", 180⟩] 10620
         = some ([⟨"wa", 10620, 10800⟩, ⟨"wb", 12000, 12180⟩], [])
     ∧ List.Pairwise afterBuffer
         [(⟨"wa", 10620, 10800⟩ : Event), ⟨"wb", 12000, 12180⟩])
    ∧ (schedule_by_freebusy [0, 1, 2, 3, 4] 2 3 10 [⟨1, "wc", 60⟩] [] 1980
         = some ([⟨"wc", 1980, 2040⟩], [])
     ∧ List.Pairwise dayMono [(⟨"wc", 1980, 2040⟩ : Event)]) :=
  ⟨⟨by decide, rfl,
    C2_cursor_amended.1 [0, 1, 2, 3, 4] 1 9 8 12 10
      [⟨1, "wa", 180⟩, ⟨2, "wb", 180⟩] 10620
      [⟨"wa", 10620, 10800⟩, ⟨"wb", 12000, 12180⟩] [] (by decide) rfl⟩,
   rfl,
   C2_cursor_amended.2 [0, 1, 2, 3, 4] 2 3 10 [⟨1, "wc", 60⟩] [] 1980
     [⟨"wc", 1980, 2040⟩] [] rfl⟩

/-- C3, counterexample.  A malformed deadline does not fall back to any
horizon: `datetime.fromisoformat` raises (source line 60 has no handler) and
the exception escapes `schedule_tasks`, so no ScheduleResult is returned. -/
theorem C3_counterexample :
    schedule_tasks 5 [] [⟨1, "c3", 60⟩] 0 none none none none
      = SchedResult.error := rfl

/-- C3 (amended): on a malformed deadline the scheduling engine always fails
the request with the raised parse error; the documented 7-day fallback
exists only in the task-count helper `decide_total_tasks` of src/app.py, not
in the scheduling engine. -/
theorem C3_malformed_deadline_amended :
    (∀ (fuel : ℕ) (cal : List Interval) (tasks : List Task) (startT : ℕ)
       (mpd : Option ℕ) (ad : Option (List String)) (pt : Option String),
       schedule_tasks fuel cal tasks startT none mpd ad pt = SchedResult.error)
    ∧ ∀ today : ℕ, daysLeft today none = 7 :=
  ⟨fun _ _ _ _ _ _ _ => rfl, fun _ => rfl⟩

/-- C4 (confirmed), Scenario A.  Day 7 of the epoch is a Monday; the horizon
start is Sunday (day 6), which `schedule_tasks` shifts to Monday 9:00
(minute 10620); the deadline is Friday (day 11).  With an empty calendar,
default cap 2, default weekdays and three 2-hour tasks, the run places
task1 Mon 9:00-11:00 (10620-10740), task2 Mon 12:00-14:00 (10800-10920,
after the 1-hour buffer) and task3 Tue 9:00-11:00 (12060-12180, Monday's
cap of 2 being reached). -/
theorem C4_scenario_A :
    schedule_tasks 20 [] [⟨1, "task1", 120⟩, ⟨2, "task2", 120⟩, ⟨3, "task3", 120⟩]
      8640 (some 11) none none none
      = SchedResult.done
          [⟨"task1", 10620, 10740⟩, ⟨"task2", 10800, 10920⟩, ⟨"task3", 12060, 12180⟩]
          [] := rfl

/-- C5, counterexample.  A calendar whose only event lies entirely after the
deadline (event at day 13, deadline day 11): the spec's bounded ModeSelector
(no busy interval in the horizon, preferred window supplied) would select
preferred-window mode, but the code's existence probe has no upper time
bound, so the event forces free/busy carve mode. -/
theorem C5_counterexample :
    modeIsPreferred [(18720, 18780)] 8640 (some ("morning")) = false
    ∧ specSelectsPreferred [(18720, 18780)] 8640 11 (some ("morning")) = true :=
  ⟨rfl, rfl⟩

/-- C5 (amended): the run selects preferred-window mode exactly when NO
calendar event ends after the shifted horizon start (an unbounded query — a
busy interval lying after the deadline does force free/busy mode) and a
valid preferred window was supplied; when that condition holds,
`schedule_tasks` runs the preferred-time engine with the looked-up window. -/
theorem C5_mode_selection_amended :
    (∀ (cal : List Interval) (startT : ℕ) (pt : Option String),
      modeIsPreferred cal startT pt = true ↔
        ((∀ e ∈ cal, e.2 ≤ atHour (dateOf (startT + 1440)) WORK_START)
          ∧ (prefWindowFor pt).isSome = true))
    ∧ (∀ (fuel : ℕ) (cal : List Interval) (tasks : List Task) (startT dl : ℕ)
        (mpd : Option ℕ) (ad : Option (List String)) (s : String) (wsHr weHr : ℕ),
        PREFERRED_WINDOWS s = some (wsHr, weHr) →
        eventsExistFrom cal (atHour (dateOf (startT + 1440)) WORK_START) = false →
        schedule_tasks fuel cal tasks startT (some dl) mpd ad (some s)
          = ofRun (schedule_by_preferred_time (allowedIndices ad)
              (mpd.getD DEFAULT_MAX_TASKS_PER_DAY) dl wsHr weHr fuel tasks
              (atHour (dateOf (startT + 1440)) WORK_START))) := by
  constructor
  · intro cal startT pt
    simp only [modeIsPreferred, Bool.and_eq_true, Bool.not_eq_true', eventsExistFrom,
      List.any_eq_false, decide_eq_false_iff_not, decide_eq_true_eq, not_lt]
  · intro fuel cal tasks startT dl mpd ad s wsHr weHr hpw hex
    simp [schedule_tasks, prefWindowFor, hpw, hex]

/-- C5, witness for the dispatch half of the amended theorem. -/
theorem C5_witness :
    (PREFERRED_WINDOWS ("morning") = some (8, 12)
      ∧ eventsExistFrom [] (atHour (dateOf (0 + 1440)) WORK_START) = false)
    ∧ schedule_tasks 3 [] [] 0 (some 2) none none (some ("morning"))
        = ofRun (schedule_by_preferred_time (allowedIndices none)
            ((none : Option ℕ).getD DEFAULT_MAX_TASKS_PER_DAY) 2 8 12 3 []
            (atHour (dateOf (0 + 1440)) WORK_START)) :=
  ⟨⟨rfl, rfl⟩,
   C5_mode_selection_amended.2 3 [] [] 0 2 none none "morning" 8 12 rfl rfl⟩

/-- C6 (confirmed): a single task of 14 hours (840 minutes) is always
returned unscheduled, for every deadline, busy calendar and policy, in both
modes: the fallback window spans 13 hours and every preferred window at most
4, so no day scan can ever fit it. -/
theorem C6_oversized_unscheduled :
    ∀ (fuel : ℕ) (cal : List Interval) (startT dl : ℕ) (mpd : Option ℕ)
      (ad : Option (List String)) (pt : Option String) (i : ℕ) (nm : String)
      (sched : List Event) (unsched : List Unsched),
      schedule_tasks fuel cal [⟨i, nm, 840⟩] startT (some dl) mpd ad pt
        = SchedResult.done sched unsched →
      sched = [] ∧ unsched = [⟨i, nm⟩] := by
  intro fuel cal startT dl mpd ad pt i nm sched unsched h
  rcases schedule_tasks_done h with ⟨busy, hrun⟩ | ⟨a, b, hpw, hrun⟩
  · have hd : (780 : ℕ) < 840 := by decide
    exact schedule_by_freebusy_big hd hrun
  · exact schedule_by_preferred_time_big (prefWindowFor_bounds hpw).2 hrun

/-- C6, witness at a concrete terminating run. -/
theorem C6_witness :
    schedule_tasks 10 [] [⟨5, "big", 840⟩] 0 (some 2) none none none
      = SchedResult.done [] [⟨5, "big"⟩]
    ∧ ([] : List Event) = [] ∧ [(⟨5, "big"⟩ : Unsched)] = [⟨5, "big"⟩] :=
  ⟨rfl, C6_oversized_unscheduled 10 [] 0 2 none none none 5 "big" [] [⟨5, "big"⟩] rfl⟩

/-- C7 (confirmed): for every run that finishes, in both modes, the number
of tasks placed on any calendar day never exceeds the daily cap (the
supplied max_per_day, or the default of 2 when none is supplied). -/
theorem C7_daily_cap :
    ∀ (fuel : ℕ) (cal : List Interval) (tasks : List Task) (startT dl : ℕ)
      (mpd : Option ℕ) (ad : Option (List String)) (pt : Option String)
      (sched : List Event) (unsched : List Unsched),
      schedule_tasks fuel cal tasks startT (some dl) mpd ad pt
        = SchedResult.done sched unsched →
      ∀ d, placedOn sched d ≤ mpd.getD DEFAULT_MAX_TASKS_PER_DAY := by
  intro fuel cal tasks startT dl mpd ad pt sched unsched h
  rcases schedule_tasks_done h with ⟨busy, hrun⟩ | ⟨a, b, hpw, hrun⟩
  · exact (schedule_by_freebusy_sound hrun).2.2
  · exact (schedule_by_preferred_time_sound (prefWindowFor_bounds hpw).1 hrun).2

/-- C7, witness at a concrete run with the default cap. -/
theorem C7_witness :
    schedule_tasks 10 [] [⟨1, "w7", 60⟩] 0 (some 3) none none none
      = SchedResult.done [⟨"w7", 1980, 2040⟩] []
    ∧ ∀ d, placedOn [(⟨"w7", 1980, 2040⟩ : Event)] d
        ≤ (none : Option ℕ).getD DEFAULT_MAX_TASKS_PER_DAY :=
  ⟨rfl, C7_daily_cap 10 [] [⟨1, "w7", 60⟩] 0 3 none none none
    [⟨"w7", 1980, 2040⟩] [] rfl⟩

/-- C8 (code bug): with a nonempty `allowed_days` list containing only
unrecognized weekday codes, the decoded allowed set is empty, and as soon as
any task has to scan a day at or before the deadline, the weekday-skipping
loops (`next_allowed_probe`, `next_allowed_date_from`) never find an allowed
day and the computation never terminates: no amount of fuel produces a
result, in either mode. -/
theorem C8_unrecognized_days_diverge :
    ∀ (fuel : ℕ) (cal : List Interval) (t : Task) (ts : List Task) (startT dl : ℕ)
      (mpd : Option ℕ) (pt : Option String),
      dateOf (startT + 1440) ≤ dl →
      schedule_tasks fuel cal (t :: ts) startT (some dl) mpd (some ["XX"]) pt
        = SchedResult.fuelOut := by
  intro fuel cal t ts startT dl mpd pt hdl
  have hai : allowedIndices (some ["XX"]) = [] := rfl
  have hfb : ∀ busy : List Interval,
      schedule_by_freebusy (allowedIndices (some ["XX"]))
        (mpd.getD DEFAULT_MAX_TASKS_PER_DAY) dl fuel (t :: ts) busy
        (atHour (dateOf (startT + 1440)) WORK_START) = none := by
    intro busy
    rw [hai, schedule_by_freebusy]
    rw [hourOf_atHour _ _ (by decide), if_neg (lt_irrefl _)]
    refine fbGo_empty_allowed ?_
    rw [dateOf_atHour _ _ (by decide)]
    exact hdl
  simp only [schedule_tasks]
  cases hpw : prefWindowFor pt with
  | none =>
    rw [hfb]
    rfl
  | some w =>
    obtain ⟨a, b⟩ := w
    split
    · split
      · rw [hfb]
        rfl
      · rw [hai, schedule_by_preferred_time_empty_allowed]
        rfl
    · rw [hfb]
      rfl

/-- C8, witness: a concrete one-task request with `allowed_days = ["XX"]`
and a deadline after the shifted start never finishes. -/
theorem C8_witness :
    dateOf (0 + 1440) ≤ 3
    ∧ schedule_tasks 4 [] [⟨1, "w8", 60⟩] 0 (some 3) none (some ["XX"]) none
        = SchedResult.fuelOut :=
  ⟨by decide,
   C8_unrecognized_days_diverge 4 [] ⟨1, "w8", 60⟩ [] 0 3 none none (by decide)⟩

/-- C9, counterexample.  With an insert call that raises on the first event,
`create_calendar_events` aborts the whole batch: the exception escapes (no
id list is returned) and the second event's insert is never executed — no
per-event reporting and no partial result, refuting the claim. -/
theorem C9_counterexample :
    create_calendar_events (fun _ => none) [⟨"e1", 600, 660⟩, ⟨"e2", 720, 780⟩]
      = (Except.error (), [⟨"e1", 600, 660⟩])
    ∧ (⟨"e2", 720, 780⟩ : Event) ∉ (create_calendar_events (fun _ => none)
        [⟨"e1", 600, 660⟩, ⟨"e2", 720, 780⟩]).2 :=
  ⟨rfl, by decide⟩

/-- C9 (amended): the first failing insert is fatal to the batch — after any
prefix of successful inserts, a failure makes the call return the raised
error (no id list), with exactly the prefix plus the failing event ever
attempted, and later events never inserted; already-executed inserts are not
rolled back. -/
theorem C9_insert_failure_amended :
    ∀ (ins : Event → Option ℕ) (pre : List Event) (ev : Event) (evs : List Event),
      (∀ x ∈ pre, (ins x).isSome) → ins ev = none →
      create_calendar_events ins (pre ++ ev :: evs)
        = (Except.error (), pre ++ [ev]) := by
  intro ins pre
  induction pre with
  | nil =>
    intro ev evs _ hev
    rw [List.nil_append, create_calendar_events]
    simp only [hev, List.nil_append]
  | cons x pre ih =>
    intro ev evs hpre hev
    rw [List.cons_append, create_calendar_events]
    cases hx : ins x with
    | none =>
      have hs := hpre x (List.mem_cons_self _ _)
      rw [hx] at hs
      simp at hs
    | some i =>
      simp only [hx]
      rw [ih ev evs (fun y hy => hpre y (List.mem_cons_of_mem _ hy)) hev]
      rfl

/-- C9, witness: one successful insert, then a failing one, then a never
reached one. -/
theorem C9_witness :
    (∀ x ∈ [(⟨"p1", 60, 120⟩ : Event)],
        ((fun (e : Event) => if e = ⟨"p1", 60, 120⟩ then some 1 else none) x).isSome)
    ∧ (fun (e : Event) => if e = ⟨"p1", 60, 120⟩ then some 1 else none)
        (⟨"q1", 200, 260⟩ : Event) = none
    ∧ create_calendar_events
        (fun (e : Event) => if e = ⟨"p1", 60, 120⟩ then some 1 else none)
        ([⟨"p1", 60, 120⟩] ++ ⟨"q1", 200, 260⟩ :: [⟨"r1", 300, 360⟩])
        = (Except.error (), [⟨"p1", 60, 120⟩] ++ [⟨"q1", 200, 260⟩]) :=
  ⟨by decide, by decide,
   C9_insert_failure_amended _ [⟨"p1", 60, 120⟩] ⟨"q1", 200, 260⟩ [⟨"r1", 300, 360⟩]
     (by decide) (by decide)⟩

/-- C10 (confirmed): for every run that finishes, in both modes, the bare
scheduled intervals (buffers not counted) are pairwise disjoint. -/
theorem C10_slots_disjoint :
    ∀ (fuel : ℕ) (cal : List Interval) (tasks : List Task) (startT dl : ℕ)
      (mpd : Option ℕ) (ad : Option (List String)) (pt : Option String)
      (sched : List Event) (unsched : List Unsched),
      schedule_tasks fuel cal tasks startT (some dl) mpd ad pt
        = SchedResult.done sched unsched →
      List.Pairwise slotsDisjoint sched := by
  intro fuel cal tasks startT dl mpd ad pt sched unsched h
  rcases schedule_tasks_done h with ⟨busy, hrun⟩ | ⟨a, b, hpw, hrun⟩
  · refine ((schedule_by_freebusy_sound hrun).1).imp fun hx => ?_
    rcases hx with hx | hx
    · exact Or.inl (by omega)
    · exact Or.inr hx
  · have hwe := (prefWindowFor_bounds hpw).1
    refine ((schedule_by_preferred_time_sound hwe hrun).1).imp fun hx => ?_
    exact Or.inl (le_trans (Nat.le_add_right _ _) hx)

/-- C10, witness at a concrete two-task run. -/
theorem C10_witness :
    schedule_tasks 10 [] [⟨1, "wd", 60⟩, ⟨2, "we", 60⟩] 0 (some 3) none none none
      = SchedResult.done [⟨"wd", 1980, 2040⟩, ⟨"we", 2100, 2160⟩] []
    ∧ List.Pairwise slotsDisjoint [(⟨"wd", 1980, 2040⟩ : Event), ⟨"we", 2100, 2160⟩] :=
  ⟨rfl, C10_slots_disjoint 10 [] [⟨1, "wd", 60⟩, ⟨2, "we", 60⟩] 0 3 none none none
    [⟨"wd", 1980, 2040⟩, ⟨"we", 2100, 2160⟩] [] rfl⟩

end PM
